import Mathlib

/-!
Verification of the graft patch engine (manifest model, directory differ,
validate/backup/apply/verify/rollback state machine, rollback command,
embedded-patcher runner) against its specification.

The filesystem is modelled shallowly: a flat directory is an association
list from leaf file names to byte contents (`FileMap`), and every engine
function is translated from the Rust source into a pure Lean function over
such maps.  The hash primitive (`src/utils/hash.rs`) and the binary diff
primitive are not part of the source snapshot; the engine treats them as
contract-bounded primitives, so they appear here as explicit function
parameters (`hash_bytes`, `apply_diff`).
-/

namespace Graft

/-- Raw file contents: a sequence of bytes. -/
abbrev Bytes := List Nat

/-- A flat directory: leaf file names mapped to contents.  Earlier pairs
shadow later ones; all reasoning is via `readF`. -/
abbrev FileMap := List (String × Bytes)

/-- Model of reading a file from a directory (`fs::read`): the contents of
the first entry with the given name, or `none` when absent. -/
def readF : FileMap → String → Option Bytes
  | [], _ => none
  | p :: m, f => if p.1 = f then some p.2 else readF m f

/-- Model of `Path::exists` restricted to a flat directory. -/
def existsF (m : FileMap) (f : String) : Bool :=
  (readF m f).isSome

/-- Model of removing a file (`fs::remove_file`, idempotent at the map
level: removing an absent name is the identity). -/
def removeF : FileMap → String → FileMap
  | [], _ => []
  | p :: m, f => if p.1 = f then removeF m f else p :: removeF m f

/-- Model of writing a file (`fs::write` / `fs::copy` to a destination):
overwrites any previous entry of the same name. -/
def writeF (m : FileMap) (f : String) (b : Bytes) : FileMap :=
  (f, b) :: removeF m f

theorem readF_removeF (m : FileMap) (f g : String) :
    readF (removeF m f) g = if g = f then none else readF m g := by
  induction m with
  | nil => simp [readF, removeF]
  | cons p m ih =>
      by_cases hpf : p.1 = f
      · rw [removeF, if_pos hpf, ih]
        by_cases hgf : g = f
        · simp [hgf]
        · have hpg : ¬ p.1 = g := fun h => hgf (h ▸ hpf)
          simp [hgf, readF, hpg]
      · rw [removeF, if_neg hpf]
        by_cases hpg : p.1 = g
        · have hgf : ¬ g = f := fun h => hpf (h ▸ hpg)
          simp [readF, hpg, hgf]
        · simp [readF, hpg, ih]

theorem readF_writeF (m : FileMap) (f g : String) (b : Bytes) :
    readF (writeF m f b) g = if g = f then some b else readF m g := by
  by_cases hgf : g = f
  · simp [writeF, readF, hgf]
  · simp only [writeF, readF, if_neg (fun h : f = g => hgf h.symm)]
    simp [readF_removeF, hgf]

/-- Manifest entry as pattern-matched by the engine
(`commands/patch_apply.rs`, `patch/verify.rs`): a tagged variant, each
naming a single flat file, with exactly the hash fields of its variant. -/
inductive ManifestEntry
  | patch (file original_hash diff_hash final_hash : String)
  | add (file final_hash : String)
  | delete (file original_hash : String)
deriving DecidableEq

/-- The single file named by an entry (`ManifestEntry::file`). -/
def ManifestEntry.file : ManifestEntry → String
  | .patch f _ _ _ => f
  | .add f _ => f
  | .delete f _ => f

/-- Error type for patch operations (`patch/mod.rs`). -/
inductive PatchError
  | validationFailed (file reason : String)
  | backupFailed (file reason : String)
  | applyFailed (file reason : String)
  | verificationFailed (file expected actual : String)
  | rollbackFailed (reason : String)
  | manifestError (reason : String)
deriving DecidableEq

/-- The on-disk patch bundle as the apply phase consumes it:
`diffs/<file>.diff` artifacts and `additions/<file>` raw contents. -/
structure PatchSrc where
  diffs : FileMap
  additions : FileMap

/-- Validation of one entry (the body of the loop in `validate_entries`,
`commands/patch_apply.rs`): Patch requires the target file to exist with
contents hashing to `original_hash`; Add requires the target file to be
absent; Delete requires the file, when present, to hash to
`original_hash`. -/
def validateEntry (hash_bytes : Bytes → String) (target : FileMap) :
    ManifestEntry → Except PatchError Unit
  | .patch file original_hash _ _ =>
      match readF target file with
      | none => .error (.validationFailed file "file not found in target")
      | some data =>
          if hash_bytes data = original_hash then .ok ()
          else .error (.validationFailed file "hash mismatch")
  | .add file _ =>
      if existsF target file then
        .error (.validationFailed file "file already exists in target")
      else .ok ()
  | .delete file original_hash =>
      match readF target file with
      | none => .ok ()
      | some data =>
          if hash_bytes data = original_hash then .ok ()
          else .error (.validationFailed file "hash mismatch")

/-- `validate_entries` (`commands/patch_apply.rs`): validate every entry in
order, stopping at the first failure, before any mutation. -/
def validate_entries (hash_bytes : Bytes → String)
    (entries : List ManifestEntry) (target : FileMap) :
    Except PatchError Unit :=
  match entries with
  | [] => .ok ()
  | e :: rest =>
      match validateEntry hash_bytes target e with
      | .ok _ => validate_entries hash_bytes rest target
      | .error err => .error err

/-- `backup_file` (`utils/file_ops.rs`): copy a file into the backup
directory preserving the leaf name (byte-exact copy, overwriting). -/
def backup_file (src : Bytes) (backup : FileMap) (filename : String) :
    FileMap :=
  writeF backup filename src

/-- `backup_entries` (`commands/patch_apply.rs`): for each Patch or Delete
entry whose target file exists, copy it into the backup directory; Add
entries are skipped.  In this pure model the copy of an existing file
cannot fail, so the `BackupFailed` branch of the source is unreachable and
the function returns the final backup directory. -/
def backup_entries (entries : List ManifestEntry) (target backup : FileMap) :
    FileMap :=
  match entries with
  | [] => backup
  | e :: rest =>
      let backup1 :=
        match e with
        | .patch file _ _ _ =>
            match readF target file with
            | some b => backup_file b backup file
            | none => backup
        | .delete file _ =>
            match readF target file with
            | some b => backup_file b backup file
            | none => backup
        | .add _ _ => backup
      backup_entries rest target backup1

/-- Modelled from the spec: `apply_entry` lives in `src/patch/apply.rs`,
which is not part of the source snapshot (only its callers are), so the
per-entry apply step follows the spec (section 4.7, phase 3, step 1):
Patch reads the target file and the diff artifact and writes
`apply_diff`'s result atomically; Add copies the addition into the target;
Delete removes the target file, absence not being an error.  The optional
`diff_hash` pre-check, which the spec leaves to the implementation, is not
taken. -/
def apply_entry (apply_diff : Bytes → Bytes → Option Bytes)
    (e : ManifestEntry) (target : FileMap) (patchSrc : PatchSrc) :
    Except PatchError FileMap :=
  match e with
  | .patch file _ _ _ =>
      match readF target file, readF patchSrc.diffs file with
      | some oldData, some artifact =>
          match apply_diff oldData artifact with
          | some newData => .ok (writeF target file newData)
          | none => .error (.applyFailed file "failed to apply diff")
      | some _, none => .error (.applyFailed file "failed to read diff")
      | none, _ => .error (.applyFailed file "failed to read target file")
  | .add file _ =>
      match readF patchSrc.additions file with
      | some b => .ok (writeF target file b)
      | none => .error (.applyFailed file "failed to read addition")
  | .delete file _ => .ok (removeF target file)

/-- `verify_entry` (`patch/verify.rs`): after an entry is applied, Patch
and Add require the target file to hash to `final_hash`; Delete requires
the file to be gone. -/
def verify_entry (hash_bytes : Bytes → String) (e : ManifestEntry)
    (target : FileMap) : Except PatchError Unit :=
  match e with
  | .patch file _ _ final_hash =>
      match readF target file with
      | none => .error (.verificationFailed file final_hash "failed to read file")
      | some data =>
          if hash_bytes data = final_hash then .ok ()
          else .error (.verificationFailed file final_hash (hash_bytes data))
  | .add file final_hash =>
      match readF target file with
      | none => .error (.verificationFailed file final_hash "failed to read file")
      | some data =>
          if hash_bytes data = final_hash then .ok ()
          else .error (.verificationFailed file final_hash (hash_bytes data))
  | .delete file _ =>
      if existsF target file then
        .error (.verificationFailed file "file deleted" "file still exists")
      else .ok ()

/-- One restore step of `rollback` (`commands/patch_apply.rs`): Patch
restores from backup (failing with `RollbackFailed` when the backup entry
is missing, as `restore_file` would); Delete restores only when a backup
entry exists; Add removes the added file. -/
def rollbackStep (target backup : FileMap) :
    ManifestEntry → Except PatchError FileMap
  | .patch file _ _ _ =>
      match readF backup file with
      | some b => .ok (writeF target file b)
      | none => .error (.rollbackFailed ("failed to restore " ++ file))
  | .delete file _ =>
      match readF backup file with
      | some b => .ok (writeF target file b)
      | none => .ok target
  | .add file _ => .ok (removeF target file)

/-- `rollback` (`commands/patch_apply.rs`): undo the applied entries in
order, stopping at the first failing restore.  The second component is the
state of the target directory when the function returns. -/
def rollback (applied : List ManifestEntry) (target backup : FileMap) :
    Except PatchError Unit × FileMap :=
  match applied with
  | [] => (.ok (), target)
  | e :: rest =>
      match rollbackStep target backup e with
      | .ok t1 => rollback rest t1 backup
      | .error err => (.error err, target)

/-- Phase 3 of `run` (`commands/patch_apply.rs`): apply each entry and
verify it immediately; on an apply or verify failure roll back the entries
applied so far and surface the failure (or the rollback's own failure).
The second component is the state of the target directory at return. -/
def applyLoop (hash_bytes : Bytes → String)
    (apply_diff : Bytes → Bytes → Option Bytes) (patchSrc : PatchSrc) :
    List ManifestEntry → List ManifestEntry → FileMap → FileMap →
    Except PatchError Unit × FileMap
  | [], _, target, _ => (.ok (), target)
  | e :: rest, applied, target, backup =>
      match apply_entry apply_diff e target patchSrc with
      | .error err =>
          match rollback applied target backup with
          | (.ok _, t1) => (.error err, t1)
          | (.error rbErr, t1) => (.error rbErr, t1)
      | .ok t1 =>
          match verify_entry hash_bytes e t1 with
          | .error err =>
              match rollback applied t1 backup with
              | (.ok _, t2) => (.error err, t2)
              | (.error rbErr, t2) => (.error rbErr, t2)
          | .ok _ =>
              applyLoop hash_bytes apply_diff patchSrc rest
                (applied ++ [e]) t1 backup

/-- `run` (`commands/patch_apply.rs`), from the loaded manifest on:
validate all entries, back up every existing Patch/Delete target into the
backup directory (whose prior contents are `backup0`), then apply and
verify entry by entry with rollback on failure.  The second component is
the state of the target directory at return. -/
def run (hash_bytes : Bytes → String)
    (apply_diff : Bytes → Bytes → Option Bytes)
    (entries : List ManifestEntry) (patchSrc : PatchSrc)
    (target backup0 : FileMap) : Except PatchError Unit × FileMap :=
  match validate_entries hash_bytes entries target with
  | .error err => (.error err, target)
  | .ok _ =>
      let backup := backup_entries entries target backup0
      applyLoop hash_bytes apply_diff patchSrc entries [] target backup

/-- Modelled from the spec: `validate_patched_entries` lives in
`graft-core`, which the source snapshot holds only partially; per section
4.7 (inverse operation, step 3) every entry's target must be in the
post-apply state: Patch and Add hash to `final_hash`, Delete absent. -/
def validate_patched_entries (hash_bytes : Bytes → String)
    (entries : List ManifestEntry) (target : FileMap) :
    Except PatchError Unit :=
  match entries with
  | [] => .ok ()
  | e :: rest =>
      match
        (match e with
         | .patch file _ _ final_hash =>
             match readF target file with
             | none => Except.error (PatchError.validationFailed file "file not found in target")
             | some data =>
                 if hash_bytes data = final_hash then Except.ok ()
                 else Except.error (PatchError.validationFailed file "hash mismatch")
         | .add file final_hash =>
             match readF target file with
             | none => Except.error (PatchError.validationFailed file "file not found in target")
             | some data =>
                 if hash_bytes data = final_hash then Except.ok ()
                 else Except.error (PatchError.validationFailed file "hash mismatch")
         | .delete file _ =>
             if existsF target file then
               Except.error (PatchError.validationFailed file "file still exists")
             else Except.ok ()) with
      | .ok _ => validate_patched_entries hash_bytes rest target
      | .error err => .error err

/-- Modelled from the spec: `validate_backup` lives in `graft-core`, which
the source snapshot holds only partially; per section 4.7 (inverse
operation, step 4) every Patch and Delete entry must have a backup file
whose bytes hash to `original_hash`, and a failure aborts with
`RollbackFailed`. -/
def validate_backup (hash_bytes : Bytes → String)
    (entries : List ManifestEntry) (backup : FileMap) :
    Except PatchError Unit :=
  match entries with
  | [] => .ok ()
  | e :: rest =>
      match
        (match e with
         | .patch file original_hash _ _ =>
             match readF backup file with
             | none => Except.error (PatchError.rollbackFailed ("backup file not found for " ++ file))
             | some data =>
                 if hash_bytes data = original_hash then Except.ok ()
                 else Except.error (PatchError.rollbackFailed ("backup hash mismatch for " ++ file))
         | .delete file original_hash =>
             match readF backup file with
             | none => Except.error (PatchError.rollbackFailed ("backup file not found for " ++ file))
             | some data =>
                 if hash_bytes data = original_hash then Except.ok ()
                 else Except.error (PatchError.rollbackFailed ("backup hash mismatch for " ++ file))
         | .add _ _ => Except.ok ()) with
      | .ok _ => validate_backup hash_bytes rest backup
      | .error err => .error err

/-- `run` of the rollback command (`commands/patch_rollback.rs`), from the
loaded manifest on: require the backup directory to exist, validate the
patched entries unless `force`, always validate backup integrity, then
roll back all entries.  `backupDir` is `none` when `target/.patch-backup`
does not exist.  The second component is the state of the target directory
at return. -/
def run_rollback (hash_bytes : Bytes → String)
    (entries : List ManifestEntry) (target : FileMap)
    (backupDir : Option FileMap) (force : Bool) :
    Except PatchError Unit × FileMap :=
  match backupDir with
  | none => (.error (.rollbackFailed "backup directory not found"), target)
  | some backup =>
      match
        (if force then Except.ok ()
         else validate_patched_entries hash_bytes entries target) with
      | .error err => (.error err, target)
      | .ok _ =>
          match validate_backup hash_bytes entries backup with
          | .error err => (.error err, target)
          | .ok _ => rollback entries target backup

/-- The phase-1 precondition of an entry, as the spec states it: Patch
requires the target file to exist with contents hashing to
`original_hash`; Add requires the target file not to exist; Delete
requires the file, when present, to hash to `original_hash`. -/
def validCond (hash_bytes : Bytes → String) (target : FileMap) :
    ManifestEntry → Prop
  | .patch file original_hash _ _ =>
      ∃ b, readF target file = some b ∧ hash_bytes b = original_hash
  | .add file _ => readF target file = none
  | .delete file original_hash =>
      ∀ b, readF target file = some b → hash_bytes b = original_hash

/-- The post-apply state of an entry, as the spec states it: Patch and Add
targets exist and hash to `final_hash`; Delete targets are absent. -/
def postCond (hash_bytes : Bytes → String) (target : FileMap) :
    ManifestEntry → Prop
  | .patch file _ _ final_hash =>
      ∃ b, readF target file = some b ∧ hash_bytes b = final_hash
  | .add file final_hash =>
      ∃ b, readF target file = some b ∧ hash_bytes b = final_hash
  | .delete file _ => readF target file = none

theorem validateEntry_ok_iff (hash_bytes : Bytes → String)
    (target : FileMap) (e : ManifestEntry) :
    validateEntry hash_bytes target e = .ok () ↔
      validCond hash_bytes target e := by
  cases e with
  | patch file oh dh fh =>
      cases hr : readF target file with
      | none => simp [validateEntry, validCond, hr]
      | some data =>
          by_cases hh : hash_bytes data = oh <;>
            simp [validateEntry, validCond, hr, hh]
  | add file fh =>
      cases hr : readF target file with
      | none => simp [validateEntry, validCond, existsF, hr]
      | some data => simp [validateEntry, validCond, existsF, hr]
  | delete file oh =>
      cases hr : readF target file with
      | none => simp [validateEntry, validCond, hr]
      | some data =>
          by_cases hh : hash_bytes data = oh <;>
            simp [validateEntry, validCond, hr, hh]

theorem validateEntry_error (hash_bytes : Bytes → String)
    (target : FileMap) (e : ManifestEntry) (err : PatchError)
    (h : validateEntry hash_bytes target e = .error err) :
    (∃ reason, err = .validationFailed e.file reason) ∧
      ¬ validCond hash_bytes target e := by
  have hne : validateEntry hash_bytes target e ≠ .ok () := by
    rw [h]; intro hc; cases hc
  have hnc : ¬ validCond hash_bytes target e := fun hc =>
    hne ((validateEntry_ok_iff hash_bytes target e).mpr hc)
  refine ⟨?_, hnc⟩
  cases e with
  | patch file oh dh fh =>
      cases hr : readF target file with
      | none =>
          simp only [validateEntry, hr] at h
          exact ⟨"file not found in target", by cases h; rfl⟩
      | some data =>
          simp only [validateEntry, hr] at h
          by_cases hh : hash_bytes data = oh
          · rw [if_pos hh] at h; cases h
          · rw [if_neg hh] at h
            exact ⟨"hash mismatch", by cases h; rfl⟩
  | add file fh =>
      by_cases he : existsF target file = true
      · simp only [validateEntry, if_pos he] at h
        exact ⟨"file already exists in target", by cases h; rfl⟩
      · simp only [validateEntry, if_neg he] at h; cases h
  | delete file oh =>
      cases hr : readF target file with
      | none => simp only [validateEntry, hr] at h; cases h
      | some data =>
          simp only [validateEntry, hr] at h
          by_cases hh : hash_bytes data = oh
          · rw [if_pos hh] at h; cases h
          · rw [if_neg hh] at h
            exact ⟨"hash mismatch", by cases h; rfl⟩

theorem validate_entries_ok_iff (hash_bytes : Bytes → String)
    (entries : List ManifestEntry) (target : FileMap) :
    validate_entries hash_bytes entries target = .ok () ↔
      ∀ e ∈ entries, validCond hash_bytes target e := by
  induction entries with
  | nil => simp [validate_entries]
  | cons e rest ih =>
      cases hve : validateEntry hash_bytes target e with
      | ok u =>
          cases u
          have hc := (validateEntry_ok_iff hash_bytes target e).mp hve
          simp [validate_entries, hve, ih, hc]
      | error err =>
          have hnc := (validateEntry_error hash_bytes target e err hve).2
          simp only [validate_entries, hve]
          constructor
          · intro hc; cases hc
          · intro hall
            exact absurd (hall e (by simp)) hnc

theorem validate_entries_error (hash_bytes : Bytes → String)
    (entries : List ManifestEntry) (target : FileMap) (err : PatchError)
    (h : validate_entries hash_bytes entries target = .error err) :
    ∃ file reason, err = .validationFailed file reason ∧
      ∃ e ∈ entries, e.file = file ∧ ¬ validCond hash_bytes target e := by
  induction entries with
  | nil => simp [validate_entries] at h
  | cons e rest ih =>
      cases hve : validateEntry hash_bytes target e with
      | ok u =>
          cases u
          rw [validate_entries, hve] at h
          obtain ⟨f, r, he, e2, hm, hf, hnc⟩ := ih h
          exact ⟨f, r, he, e2, by simp [hm], hf, hnc⟩
      | error err2 =>
          rw [validate_entries, hve] at h
          cases h
          obtain ⟨⟨r, hr⟩, hnc⟩ :=
            validateEntry_error hash_bytes target e err hve
          exact ⟨e.file, r, hr, e, by simp, rfl, hnc⟩

/-- C3: phase-1 validation succeeds for a Patch entry iff the target file
exists and its content hashes to `original_hash`, for an Add entry iff the
target file does not exist, and for a Delete entry iff the file is absent
or its content hashes to `original_hash`; any validation failure is
surfaced as `ValidationFailed` naming the offending file, and the target
directory is returned unchanged by the call. -/
theorem c3_validation_semantics (hash_bytes : Bytes → String)
    (apply_diff : Bytes → Bytes → Option Bytes)
    (entries : List ManifestEntry) (patchSrc : PatchSrc)
    (target backup0 : FileMap) :
    (validate_entries hash_bytes entries target = .ok () ↔
      ∀ e ∈ entries, validCond hash_bytes target e)
    ∧ (∀ err, validate_entries hash_bytes entries target = .error err →
        (∃ file reason, err = .validationFailed file reason ∧
          ∃ e ∈ entries, e.file = file ∧ ¬ validCond hash_bytes target e)
        ∧ run hash_bytes apply_diff entries patchSrc target backup0 =
            (.error err, target)) := by
  refine ⟨validate_entries_ok_iff hash_bytes entries target, ?_⟩
  intro err herr
  refine ⟨validate_entries_error hash_bytes entries target err herr, ?_⟩
  simp [run, herr]

theorem verify_entry_postCond (hash_bytes : Bytes → String)
    (e : ManifestEntry) (target : FileMap)
    (h : verify_entry hash_bytes e target = .ok ()) :
    postCond hash_bytes target e := by
  cases e with
  | patch file oh dh fh =>
      cases hr : readF target file with
      | none => simp only [verify_entry, hr] at h; cases h
      | some data =>
          simp only [verify_entry, hr] at h
          by_cases hh : hash_bytes data = fh
          · exact ⟨data, hr, hh⟩
          · rw [if_neg hh] at h; cases h
  | add file fh =>
      cases hr : readF target file with
      | none => simp only [verify_entry, hr] at h; cases h
      | some data =>
          simp only [verify_entry, hr] at h
          by_cases hh : hash_bytes data = fh
          · exact ⟨data, hr, hh⟩
          · rw [if_neg hh] at h; cases h
  | delete file oh =>
      by_cases he : existsF target file = true
      · simp only [verify_entry, if_pos he] at h; cases h
      · have hnone : readF target file = none := by
          cases hr : readF target file with
          | none => rfl
          | some b => exact absurd (by simp [existsF, hr]) he
        simpa [postCond] using hnone

theorem postCond_congr (hash_bytes : Bytes → String) (e : ManifestEntry)
    (t1 t2 : FileMap) (hread : readF t2 e.file = readF t1 e.file)
    (h : postCond hash_bytes t1 e) : postCond hash_bytes t2 e := by
  cases e with
  | patch file oh dh fh =>
      obtain ⟨b, hb, hh⟩ := h
      exact ⟨b, by rw [ManifestEntry.file] at hread; rw [hread, hb], hh⟩
  | add file fh =>
      obtain ⟨b, hb, hh⟩ := h
      exact ⟨b, by rw [ManifestEntry.file] at hread; rw [hread, hb], hh⟩
  | delete file oh =>
      rw [ManifestEntry.file] at hread
      exact hread.trans h

theorem apply_entry_frame (apply_diff : Bytes → Bytes → Option Bytes)
    (e : ManifestEntry) (target t1 : FileMap) (patchSrc : PatchSrc)
    (h : apply_entry apply_diff e target patchSrc = .ok t1) :
    ∀ g, g ≠ e.file → readF t1 g = readF target g := by
  intro g hg
  cases e with
  | patch file oh dh fh =>
      rw [ManifestEntry.file] at hg
      cases hr : readF target file with
      | none => simp only [apply_entry, hr] at h; cases h
      | some oldData =>
          cases hd : readF patchSrc.diffs file with
          | none => simp only [apply_entry, hr, hd] at h; cases h
          | some artifact =>
              simp only [apply_entry, hr, hd] at h
              cases ha : apply_diff oldData artifact with
              | none => simp only [ha] at h; cases h
              | some newData =>
                  simp only [ha] at h
                  cases h
                  simp [readF_writeF, hg]
  | add file fh =>
      rw [ManifestEntry.file] at hg
      cases hd : readF patchSrc.additions file with
      | none => simp only [apply_entry, hd] at h; cases h
      | some b =>
          simp only [apply_entry, hd] at h
          cases h
          simp [readF_writeF, hg]
  | delete file oh =>
      rw [ManifestEntry.file] at hg
      simp only [apply_entry] at h
      cases h
      simp [readF_removeF, hg]

theorem applyLoop_ok_frame (hash_bytes : Bytes → String)
    (apply_diff : Bytes → Bytes → Option Bytes) (patchSrc : PatchSrc)
    (rest applied : List ManifestEntry) (target backup t1 : FileMap)
    (h : applyLoop hash_bytes apply_diff patchSrc rest applied target backup
          = (.ok (), t1)) :
    ∀ g, g ∉ rest.map ManifestEntry.file → readF t1 g = readF target g := by
  induction rest generalizing applied target with
  | nil =>
      simp only [applyLoop] at h
      cases h
      intro g _; rfl
  | cons e rest ih =>
      intro g hg
      rw [List.map_cons, List.mem_cons] at hg
      push_neg at hg
      cases hae : apply_entry apply_diff e target patchSrc with
      | error err =>
          simp only [applyLoop, hae] at h
          rcases hrb : rollback applied target backup with ⟨res, t2⟩
          cases res <;> simp only [hrb] at h <;> cases h
      | ok tA =>
          simp only [applyLoop, hae] at h
          cases hve : verify_entry hash_bytes e tA with
          | error err =>
              simp only [hve] at h
              rcases hrb : rollback applied tA backup with ⟨res, t2⟩
              cases res <;> simp only [hrb] at h <;> cases h
          | ok u =>
              cases u
              simp only [hve] at h
              have h1 := ih (applied ++ [e]) tA h g hg.2
              have h2 := apply_entry_frame apply_diff e target tA patchSrc
                hae g hg.1
              exact h1.trans h2

theorem applyLoop_ok_post (hash_bytes : Bytes → String)
    (apply_diff : Bytes → Bytes → Option Bytes) (patchSrc : PatchSrc)
    (rest applied : List ManifestEntry) (target backup t1 : FileMap)
    (hnd : (rest.map ManifestEntry.file).Nodup)
    (h : applyLoop hash_bytes apply_diff patchSrc rest applied target backup
          = (.ok (), t1)) :
    ∀ e ∈ rest, postCond hash_bytes t1 e := by
  induction rest generalizing applied target with
  | nil => intro e he; cases he
  | cons e rest ih =>
      rw [List.map_cons, List.nodup_cons] at hnd
      intro e2 he2
      cases hae : apply_entry apply_diff e target patchSrc with
      | error err =>
          simp only [applyLoop, hae] at h
          rcases hrb : rollback applied target backup with ⟨res, t2⟩
          cases res <;> simp only [hrb] at h <;> cases h
      | ok tA =>
          simp only [applyLoop, hae] at h
          cases hve : verify_entry hash_bytes e tA with
          | error err =>
              simp only [hve] at h
              rcases hrb : rollback applied tA backup with ⟨res, t2⟩
              cases res <;> simp only [hrb] at h <;> cases h
          | ok u =>
              cases u
              simp only [hve] at h
              rcases List.mem_cons.mp he2 with he2 | he2
              · subst he2
                have hpost := verify_entry_postCond hash_bytes e2 tA hve
                have hframe := applyLoop_ok_frame hash_bytes apply_diff
                  patchSrc rest (applied ++ [e2]) tA backup t1 h
                  e2.file hnd.1
                exact postCond_congr hash_bytes e2 tA t1 hframe hpost
              · exact ih (applied ++ [e]) tA hnd.2 h e2 he2

/-- C2: for a manifest whose entries carry pairwise distinct file names, a
successful apply run leaves every Patch and Add target file existing with
contents hashing to the entry's `final_hash`, and every Delete target file
absent. -/
theorem c2_hash_identity (hash_bytes : Bytes → String)
    (apply_diff : Bytes → Bytes → Option Bytes)
    (entries : List ManifestEntry) (patchSrc : PatchSrc)
    (target backup0 tFinal : FileMap)
    (hnd : (entries.map ManifestEntry.file).Nodup)
    (hrun : run hash_bytes apply_diff entries patchSrc target backup0 =
      (.ok (), tFinal)) :
    ∀ e ∈ entries, postCond hash_bytes tFinal e := by
  cases hv : validate_entries hash_bytes entries target with
  | error err => simp only [run, hv] at hrun; cases hrun
  | ok u =>
      cases u
      simp only [run, hv] at hrun
      exact applyLoop_ok_post hash_bytes apply_diff patchSrc entries []
        target (backup_entries entries target backup0) tFinal hnd hrun

/-- The `original_hash` an entry carries: present exactly for Patch and
Delete. -/
def ManifestEntry.originalHash : ManifestEntry → Option String
  | .patch _ original_hash _ _ => some original_hash
  | .add _ _ => none
  | .delete _ original_hash => some original_hash

/-- Whether `backup_entries` copies a backup for this entry: it is a Patch
or Delete entry and its target file exists. -/
def ManifestEntry.isBackedUp (target : FileMap) : ManifestEntry → Bool
  | .patch file _ _ _ => existsF target file
  | .delete file _ => existsF target file
  | .add _ _ => false

theorem backup_entries_readF (entries : List ManifestEntry)
    (target backup0 : FileMap) (f : String) :
    readF (backup_entries entries target backup0) f =
      if entries.any (fun e => e.isBackedUp target && (e.file == f)) then
        readF target f
      else readF backup0 f := by
  induction entries generalizing backup0 with
  | nil => simp [backup_entries]
  | cons e rest ih =>
      rw [List.any_cons]
      by_cases hc : (e.isBackedUp target && (e.file == f)) = true
      · obtain ⟨hb, hf⟩ := Bool.and_eq_true_iff.mp hc
        have hf2 : e.file = f := by simpa using hf
        simp only [hc, Bool.true_or, if_true]
        cases e with
        | patch file oh dh fh =>
            rw [ManifestEntry.file] at hf2
            subst hf2
            cases hr : readF target file with
            | none =>
                rw [ManifestEntry.isBackedUp, existsF, hr] at hb
                cases hb
            | some b =>
                rw [backup_entries, hr, ih]
                by_cases hrest :
                    (rest.any fun e => e.isBackedUp target && (e.file == file)) = true
                · simp [hrest, hr]
                · simp [hrest, backup_file, readF_writeF, hr]
        | delete file oh =>
            rw [ManifestEntry.file] at hf2
            subst hf2
            cases hr : readF target file with
            | none =>
                rw [ManifestEntry.isBackedUp, existsF, hr] at hb
                cases hb
            | some b =>
                rw [backup_entries, hr, ih]
                by_cases hrest :
                    (rest.any fun e => e.isBackedUp target && (e.file == file)) = true
                · simp [hrest, hr]
                · simp [hrest, backup_file, readF_writeF, hr]
        | add file fh => rw [ManifestEntry.isBackedUp] at hb; cases hb
      · have hc2 : (e.isBackedUp target && (e.file == f)) = false := by
          simpa using hc
        simp only [hc2, Bool.false_or]
        cases e with
        | patch file oh dh fh =>
            cases hr : readF target file with
            | none => simp only [backup_entries, hr]; rw [ih]
            | some b =>
                have hbk : (ManifestEntry.patch file oh dh fh).isBackedUp
                    target = true := by
                  simp [ManifestEntry.isBackedUp, existsF, hr]
                have hff : ((ManifestEntry.patch file oh dh fh).file == f)
                    = false := by
                  rcases Bool.and_eq_false_iff.mp hc2 with hx | hx
                  · rw [hbk] at hx; cases hx
                  · exact hx
                have hnf : ¬ file = f := by simpa [ManifestEntry.file] using hff
                simp only [backup_entries, hr]
                rw [ih]
                simp only [backup_file, readF_writeF]
                rw [if_neg (fun h : f = file => hnf h.symm)]
        | delete file oh =>
            cases hr : readF target file with
            | none => simp only [backup_entries, hr]; rw [ih]
            | some b =>
                have hbk : (ManifestEntry.delete file oh).isBackedUp
                    target = true := by
                  simp [ManifestEntry.isBackedUp, existsF, hr]
                have hff : ((ManifestEntry.delete file oh).file == f)
                    = false := by
                  rcases Bool.and_eq_false_iff.mp hc2 with hx | hx
                  · rw [hbk] at hx; cases hx
                  · exact hx
                have hnf : ¬ file = f := by simpa [ManifestEntry.file] using hff
                simp only [backup_entries, hr]
                rw [ih]
                simp only [backup_file, readF_writeF]
                rw [if_neg (fun h : f = file => hnf h.symm)]
        | add file fh => simp only [backup_entries]; rw [ih]

/-- C5: once the backup phase completes (after validation, before any
apply), the backup directory holds, for each Patch or Delete entry whose
target file existed at validation time, a file of the same leaf name whose
bytes hash to the entry's `original_hash`; every other name of the backup
directory is untouched, so Add entries and already-absent Delete entries
contribute no backup file. -/
theorem c5_backup_contents (hash_bytes : Bytes → String)
    (entries : List ManifestEntry) (target backup0 : FileMap)
    (hval : validate_entries hash_bytes entries target = .ok ()) :
    (∀ e ∈ entries, ∀ original_hash,
        e.originalHash = some original_hash →
        existsF target e.file = true →
        ∃ b, readF (backup_entries entries target backup0) e.file = some b ∧
          hash_bytes b = original_hash)
    ∧ (∀ f, readF (backup_entries entries target backup0) f ≠ readF backup0 f →
        ∃ e ∈ entries, e.isBackedUp target = true ∧ e.file = f) := by
  have hcond := (validate_entries_ok_iff hash_bytes entries target).mp hval
  constructor
  · intro e he original_hash hoh hex
    have hbk : e.isBackedUp target = true := by
      cases e with
      | patch file oh dh fh => simpa [ManifestEntry.isBackedUp] using hex
      | delete file oh => simpa [ManifestEntry.isBackedUp] using hex
      | add file fh => cases hoh
    have hany : (entries.any fun e2 => e2.isBackedUp target && (e2.file == e.file))
        = true :=
      List.any_eq_true.mpr ⟨e, he, by simp [hbk]⟩
    rw [backup_entries_readF, if_pos hany]
    obtain ⟨b, hb⟩ := Option.isSome_iff_exists.mp (by simpa [existsF] using hex)
    refine ⟨b, hb, ?_⟩
    have hv := hcond e he
    cases e with
    | patch file oh dh fh =>
        obtain ⟨b2, hb2, hh2⟩ := hv
        rw [ManifestEntry.file] at hb
        rw [hb] at hb2
        cases hb2
        cases hoh
        exact hh2
    | delete file oh =>
        rw [ManifestEntry.file] at hb
        cases hoh
        exact hv b hb
    | add file fh => cases hoh
  · intro f hdiff
    rw [backup_entries_readF] at hdiff
    by_cases hany : (entries.any fun e => e.isBackedUp target && (e.file == f))
        = true
    · obtain ⟨e, he, hcond2⟩ := List.any_eq_true.mp hany
      obtain ⟨h1, h2⟩ := Bool.and_eq_true_iff.mp hcond2
      exact ⟨e, he, h1, by simpa using h2⟩
    · rw [if_neg hany] at hdiff
      exact absurd rfl hdiff

/-- Facts available for an entry whose apply and verify both succeeded:
enough to restore its pre-apply state from the backup.  `t0` is the target
before the run, `t` the current target. -/
def appliedFact (t0 backup t : FileMap) : ManifestEntry → Prop
  | .patch file _ _ _ =>
      ∃ b, readF t0 file = some b ∧ readF backup file = some b
  | .delete file _ =>
      readF backup file = readF t0 file ∧
        (readF backup file = none → readF t file = none)
  | .add file _ => readF t0 file = none

/-- What phase 2 guarantees about the backup directory for a not yet
applied Patch or Delete entry. -/
def backupFact (t0 backup : FileMap) : ManifestEntry → Prop
  | .patch file _ _ _ => readF backup file = readF t0 file
  | .delete file _ => readF backup file = readF t0 file
  | .add _ _ => True

theorem rollback_restores (applied : List ManifestEntry)
    (t t0 backup : FileMap)
    (hnd : (applied.map ManifestEntry.file).Nodup)
    (hfacts : ∀ e ∈ applied, appliedFact t0 backup t e) :
    ∃ t2, rollback applied t backup = (.ok (), t2) ∧
      ∀ g, readF t2 g =
        if g ∈ applied.map ManifestEntry.file then readF t0 g
        else readF t g := by
  induction applied generalizing t with
  | nil => exact ⟨t, rfl, fun g => by simp⟩
  | cons e rest ih =>
      rw [List.map_cons, List.nodup_cons] at hnd
      have hfe := hfacts e (by simp)
      have step :
          ∃ t1, rollbackStep t backup e = .ok t1 ∧
            readF t1 e.file = readF t0 e.file ∧
            ∀ g, g ≠ e.file → readF t1 g = readF t g := by
        cases e with
        | patch file oh dh fh =>
            simp only [appliedFact] at hfe
            obtain ⟨b, hb0, hbk⟩ := hfe
            refine ⟨writeF t file b, ?_, ?_, ?_⟩
            · simp [rollbackStep, hbk]
            · simp [ManifestEntry.file, readF_writeF, hb0]
            · intro g hg
              rw [ManifestEntry.file] at hg
              simp [readF_writeF, hg]
        | delete file oh =>
            simp only [appliedFact] at hfe
            obtain ⟨hbt0, hnone⟩ := hfe
            cases hbk : readF backup file with
            | some b =>
                refine ⟨writeF t file b, ?_, ?_, ?_⟩
                · simp [rollbackStep, hbk]
                · rw [hbk] at hbt0
                  simp [ManifestEntry.file, readF_writeF, hbt0]
                · intro g hg
                  rw [ManifestEntry.file] at hg
                  simp [readF_writeF, hg]
            | none =>
                refine ⟨t, by simp [rollbackStep, hbk], ?_, fun g _ => rfl⟩
                rw [hbk] at hbt0
                rw [ManifestEntry.file, hnone hbk, ← hbt0]
        | add file fh =>
            simp only [appliedFact] at hfe
            refine ⟨removeF t file, rfl, ?_, ?_⟩
            · simp [ManifestEntry.file, readF_removeF, hfe]
            · intro g hg
              rw [ManifestEntry.file] at hg
              simp [readF_removeF, hg]
      obtain ⟨t1, hstep, hat, hother⟩ := step
      have hfacts1 : ∀ e2 ∈ rest, appliedFact t0 backup t1 e2 := by
        intro e2 he2
        have hf2 := hfacts e2 (by simp [he2])
        cases e2 with
        | patch file oh dh fh => exact hf2
        | delete file oh =>
            obtain ⟨h1, h2⟩ := hf2
            refine ⟨h1, fun hb => ?_⟩
            have hne : (ManifestEntry.delete file oh).file ≠ e.file := by
              intro hc
              exact hnd.1 (hc ▸ List.mem_map_of_mem ManifestEntry.file he2)
            rw [ManifestEntry.file] at hne
            rw [hother file hne]
            exact h2 hb
        | add file fh => exact hf2
      obtain ⟨t2, hrb, hprop⟩ := ih t1 hnd.2 hfacts1
      refine ⟨t2, ?_, ?_⟩
      · simp only [rollback, hstep, hrb]
      · intro g
        rw [hprop g]
        by_cases hg : g ∈ rest.map ManifestEntry.file
        · simp [hg]
        · by_cases hge : g = e.file
          · subst hge
            simp [hg, hat]
          · simp [hg, hge, hother g hge]

theorem apply_entry_error_shape (apply_diff : Bytes → Bytes → Option Bytes)
    (e : ManifestEntry) (target : FileMap) (patchSrc : PatchSrc)
    (err : PatchError)
    (h : apply_entry apply_diff e target patchSrc = .error err) :
    ∃ reason, err = .applyFailed e.file reason := by
  cases e with
  | patch file oh dh fh =>
      cases hr : readF target file with
      | none =>
          simp only [apply_entry, hr] at h
          exact ⟨"failed to read target file", by cases h; rfl⟩
      | some oldData =>
          cases hd : readF patchSrc.diffs file with
          | none =>
              simp only [apply_entry, hr, hd] at h
              exact ⟨"failed to read diff", by cases h; rfl⟩
          | some artifact =>
              simp only [apply_entry, hr, hd] at h
              cases ha : apply_diff oldData artifact with
              | none =>
                  simp only [ha] at h
                  exact ⟨"failed to apply diff", by cases h; rfl⟩
              | some newData => simp only [ha] at h; cases h
  | add file fh =>
      cases hd : readF patchSrc.additions file with
      | none =>
          simp only [apply_entry, hd] at h
          exact ⟨"failed to read addition", by cases h; rfl⟩
      | some b => simp only [apply_entry, hd] at h; cases h
  | delete file oh => simp only [apply_entry] at h; cases h

theorem verify_entry_error_shape (hash_bytes : Bytes → String)
    (e : ManifestEntry) (target : FileMap) (err : PatchError)
    (h : verify_entry hash_bytes e target = .error err) :
    ∃ x a, err = .verificationFailed e.file x a := by
  cases e with
  | patch file oh dh fh =>
      cases hr : readF target file with
      | none =>
          simp only [verify_entry, hr] at h
          exact ⟨fh, "failed to read file", by cases h; rfl⟩
      | some data =>
          simp only [verify_entry, hr] at h
          by_cases hh : hash_bytes data = fh
          · rw [if_pos hh] at h; cases h
          · rw [if_neg hh] at h
            exact ⟨fh, hash_bytes data, by cases h; rfl⟩
  | add file fh =>
      cases hr : readF target file with
      | none =>
          simp only [verify_entry, hr] at h
          exact ⟨fh, "failed to read file", by cases h; rfl⟩
      | some data =>
          simp only [verify_entry, hr] at h
          by_cases hh : hash_bytes data = fh
          · rw [if_pos hh] at h; cases h
          · rw [if_neg hh] at h
            exact ⟨fh, hash_bytes data, by cases h; rfl⟩
  | delete file oh =>
      by_cases he : existsF target file = true
      · simp only [verify_entry, if_pos he] at h
        exact ⟨"file deleted", "file still exists", by cases h; rfl⟩
      · simp only [verify_entry, if_neg he] at h; cases h

theorem rollback_error_shape (applied : List ManifestEntry)
    (t backup t2 : FileMap) (err : PatchError)
    (h : rollback applied t backup = (.error err, t2)) :
    ∃ r, err = .rollbackFailed r := by
  induction applied generalizing t with
  | nil => cases h
  | cons e rest ih =>
      cases hstep : rollbackStep t backup e with
      | ok t1 =>
          rw [rollback, hstep] at h
          exact ih t1 h
      | error err2 =>
          rw [rollback, hstep] at h
          cases h
          cases e with
          | patch file oh dh fh =>
              cases hbk : readF backup file with
              | some b => simp [rollbackStep, hbk] at hstep
              | none =>
                  simp only [rollbackStep, hbk] at hstep
                  exact ⟨"failed to restore " ++ file, by cases hstep; rfl⟩
          | delete file oh =>
              cases hbk : readF backup file with
              | some b => simp [rollbackStep, hbk] at hstep
              | none => simp [rollbackStep, hbk] at hstep
          | add file fh => simp [rollbackStep] at hstep

theorem applyLoop_err_state (hash_bytes : Bytes → String)
    (apply_diff : Bytes → Bytes → Option Bytes) (patchSrc : PatchSrc)
    (rest : List ManifestEntry) (applied : List ManifestEntry)
    (t t0 backup tErr : FileMap) (err : PatchError)
    (hnd : ((applied ++ rest).map ManifestEntry.file).Nodup)
    (hfacts : ∀ e ∈ applied, appliedFact t0 backup t e)
    (hcur : ∀ g, g ∉ applied.map ManifestEntry.file → readF t g = readF t0 g)
    (hval : ∀ e ∈ rest, validCond hash_bytes t0 e)
    (hbk : ∀ e ∈ rest, backupFact t0 backup e)
    (h : applyLoop hash_bytes apply_diff patchSrc rest applied t backup
          = (.error err, tErr)) :
    (∀ file reason, err = .applyFailed file reason →
        ∀ g, readF tErr g = readF t0 g)
    ∧ (∀ file x a, err = .verificationFailed file x a →
        ∀ g, g ≠ file → readF tErr g = readF t0 g) := by
  induction rest generalizing applied t with
  | nil => simp [applyLoop] at h
  | cons e rest ih =>
      have hndApplied : (applied.map ManifestEntry.file).Nodup := by
        rw [List.map_append] at hnd
        exact hnd.of_append_left
      have hdisj : e.file ∉ applied.map ManifestEntry.file := by
        rw [List.map_append] at hnd
        intro hc
        exact (List.disjoint_of_nodup_append hnd) hc (by simp)
      cases hae : apply_entry apply_diff e t patchSrc with
      | error errA =>
          obtain ⟨t2, hrb, hprop⟩ :=
            rollback_restores applied t t0 backup hndApplied hfacts
          simp only [applyLoop, hae, hrb] at h
          rw [Prod.mk.injEq] at h
          obtain ⟨h1, h2⟩ := h
          injection h1 with h1
          subst h1
          subst h2
          obtain ⟨r, hshape⟩ :=
            apply_entry_error_shape apply_diff e t patchSrc errA hae
          constructor
          · intro file reason _ g
            rw [hprop g]
            by_cases hg : g ∈ applied.map ManifestEntry.file
            · simp [hg]
            · simp [hg, hcur g hg]
          · intro file x a hmatch
            rw [hshape] at hmatch
            cases hmatch
      | ok t1 =>
          cases hve : verify_entry hash_bytes e t1 with
          | error errV =>
              have hframe := apply_entry_frame apply_diff e t t1 patchSrc hae
              have hfacts1 : ∀ e2 ∈ applied, appliedFact t0 backup t1 e2 := by
                intro e2 he2
                have hf2 := hfacts e2 he2
                have hne : e2.file ≠ e.file := fun hc =>
                  hdisj (hc ▸ List.mem_map_of_mem ManifestEntry.file he2)
                cases e2 with
                | patch file oh dh fh => exact hf2
                | add file fh => exact hf2
                | delete file oh =>
                    simp only [appliedFact] at hf2 ⊢
                    obtain ⟨ha1, ha2⟩ := hf2
                    refine ⟨ha1, fun hb => ?_⟩
                    rw [ManifestEntry.file] at hne
                    rw [hframe file hne]
                    exact ha2 hb
              obtain ⟨t2, hrb, hprop⟩ :=
                rollback_restores applied t1 t0 backup hndApplied hfacts1
              simp only [applyLoop, hae, hve, hrb] at h
              rw [Prod.mk.injEq] at h
              obtain ⟨h1, h2⟩ := h
              injection h1 with h1
              subst h1
              subst h2
              obtain ⟨x2, a2, hshape⟩ :=
                verify_entry_error_shape hash_bytes e t1 errV hve
              constructor
              · intro file reason hmatch
                rw [hshape] at hmatch
                cases hmatch
              · intro file x a hmatch g hg
                rw [hshape] at hmatch
                injection hmatch with hfile _ _
                rw [hprop g]
                by_cases hgm : g ∈ applied.map ManifestEntry.file
                · simp [hgm]
                · have hge : g ≠ e.file := hfile ▸ hg
                  simp [hgm, (hframe g hge).trans (hcur g hgm)]
          | ok u =>
              cases u
              have hframe := apply_entry_frame apply_diff e t t1 patchSrc hae
              have hfactE : appliedFact t0 backup t1 e := by
                have hve2 := hval e (by simp)
                have hbe := hbk e (by simp)
                cases e with
                | patch file oh dh fh =>
                    simp only [validCond] at hve2
                    obtain ⟨b, hb0, _⟩ := hve2
                    simp only [backupFact] at hbe
                    exact ⟨b, hb0, by rw [hbe, hb0]⟩
                | add file fh =>
                    simp only [validCond] at hve2
                    exact hve2
                | delete file oh =>
                    simp only [backupFact] at hbe
                    refine ⟨hbe, fun _ => ?_⟩
                    simp only [apply_entry] at hae
                    injection hae with hae
                    rw [← hae, readF_removeF]
                    simp
              have hfactsNew :
                  ∀ e2 ∈ applied ++ [e], appliedFact t0 backup t1 e2 := by
                intro e2 he2
                rcases List.mem_append.mp he2 with h2 | h2
                · have hf2 := hfacts e2 h2
                  have hne : e2.file ≠ e.file := fun hc =>
                    hdisj (hc ▸ List.mem_map_of_mem ManifestEntry.file h2)
                  cases e2 with
                  | patch file oh dh fh => exact hf2
                  | add file fh => exact hf2
                  | delete file oh =>
                      simp only [appliedFact] at hf2 ⊢
                      obtain ⟨ha1, ha2⟩ := hf2
                      refine ⟨ha1, fun hb => ?_⟩
                      rw [ManifestEntry.file] at hne
                      rw [hframe file hne]
                      exact ha2 hb
                · have he2e : e2 = e := by simpa using h2
                  subst he2e
                  exact hfactE
              have hcurNew : ∀ g, g ∉ (applied ++ [e]).map ManifestEntry.file →
                  readF t1 g = readF t0 g := by
                intro g hg
                rw [List.map_append] at hg
                rw [List.mem_append] at hg
                push_neg at hg
                have hge : g ≠ e.file := by
                  intro hc
                  exact hg.2 (by simp [hc])
                rw [hframe g hge]
                exact hcur g hg.1
              have hndNew :
                  (((applied ++ [e]) ++ rest).map ManifestEntry.file).Nodup := by
                rw [List.append_assoc]
                exact hnd
              simp only [applyLoop, hae, hve] at h
              exact ih (applied ++ [e]) t1 hndNew hfactsNew hcurNew
                (fun e2 he2 => hval e2 (by simp [he2]))
                (fun e2 he2 => hbk e2 (by simp [he2])) h

theorem backupFact_backup_entries (entries : List ManifestEntry)
    (target backup0 : FileMap) (e : ManifestEntry)
    (he : e ∈ entries) (h0 : readF backup0 e.file = none) :
    backupFact target (backup_entries entries target backup0) e := by
  cases e with
  | patch file oh dh fh =>
      simp only [backupFact]
      rw [backup_entries_readF]
      by_cases hany :
          (entries.any fun e2 => e2.isBackedUp target && (e2.file == file))
            = true
      · rw [if_pos hany]
      · cases hr : readF target file with
        | some b =>
            have hbk : (ManifestEntry.patch file oh dh fh).isBackedUp target
                = true := by simp [ManifestEntry.isBackedUp, existsF, hr]
            exact absurd
              (List.any_eq_true.mpr
                ⟨_, he, by simp [hbk, ManifestEntry.file]⟩) hany
        | none =>
            rw [if_neg hany]
            rw [ManifestEntry.file] at h0
            rw [h0]
  | delete file oh =>
      simp only [backupFact]
      rw [backup_entries_readF]
      by_cases hany :
          (entries.any fun e2 => e2.isBackedUp target && (e2.file == file))
            = true
      · rw [if_pos hany]
      · cases hr : readF target file with
        | some b =>
            have hbk : (ManifestEntry.delete file oh).isBackedUp target
                = true := by simp [ManifestEntry.isBackedUp, existsF, hr]
            exact absurd
              (List.any_eq_true.mpr
                ⟨_, he, by simp [hbk, ManifestEntry.file]⟩) hany
        | none =>
            rw [if_neg hany]
            rw [ManifestEntry.file] at h0
            rw [h0]
  | add file fh => trivial

/-- C1 (amended): for a manifest with pairwise distinct file names applied
to a target whose backup directory holds no file named by an entry, a
phase-3 failure with successful rollback restores every target file to its
pre-call state except possibly the failing entry's own file: an
`ApplyFailed` failure (the failing apply does not mutate) leaves the whole
directory byte-identical, while a `VerificationFailed` failure leaves
every file but the failing entry's byte-identical — the failing entry is
not in `applied`, so its own already-applied mutation is not undone. -/
theorem c1_atomicity_amended (hash_bytes : Bytes → String)
    (apply_diff : Bytes → Bytes → Option Bytes)
    (entries : List ManifestEntry) (patchSrc : PatchSrc)
    (target backup0 tErr : FileMap) (err : PatchError)
    (hnd : (entries.map ManifestEntry.file).Nodup)
    (hbk0 : ∀ e ∈ entries, readF backup0 e.file = none)
    (hrun : run hash_bytes apply_diff entries patchSrc target backup0 =
      (.error err, tErr)) :
    (∀ file reason, err = .applyFailed file reason →
        ∀ g, readF tErr g = readF target g)
    ∧ (∀ file x a, err = .verificationFailed file x a →
        ∀ g, g ≠ file → readF tErr g = readF target g) := by
  cases hv : validate_entries hash_bytes entries target with
  | error errV =>
      simp only [run, hv] at hrun
      rw [Prod.mk.injEq] at hrun
      obtain ⟨h1, h2⟩ := hrun
      injection h1 with h1
      subst h1
      subst h2
      obtain ⟨f, r, hshape, _⟩ :=
        validate_entries_error hash_bytes entries target errV hv
      constructor
      · intro file reason hmatch
        rw [hshape] at hmatch
        cases hmatch
      · intro file x a hmatch
        rw [hshape] at hmatch
        cases hmatch
  | ok u =>
      cases u
      simp only [run, hv] at hrun
      refine applyLoop_err_state hash_bytes apply_diff patchSrc entries []
        target target (backup_entries entries target backup0) tErr err
        (by simpa using hnd) (fun e he => absurd he (List.not_mem_nil e))
        (fun g _ => rfl)
        ((validate_entries_ok_iff hash_bytes entries target).mp hv)
        (fun e he => backupFact_backup_entries entries target backup0 e he
          (hbk0 e he))
        hrun

/-- A concrete hash for witnesses: distinguishes the byte strings used in
the concrete scenarios. -/
def hashW : Bytes → String := fun b => if b = [1] then "h1" else "h0"

/-- A concrete diff primitive for witnesses: every artifact fails to
apply. -/
def applyDiffW : Bytes → Bytes → Option Bytes := fun _ _ => none

/-- C1 (counterexample): a one-entry manifest `Add "a"` whose `final_hash`
does not match the addition's bytes fails at the verify step of phase 3;
the rollback over the empty `applied` list succeeds (the returned error is
`VerificationFailed`, not `RollbackFailed`), yet after the call the target
contains the added file "a", which was absent before the call — the
directory is not byte-identical to its pre-call state. -/
theorem c1_atomicity_counterexample :
    (run hashW applyDiffW [ManifestEntry.add "a" "WRONG"]
        ⟨[], [("a", [1])]⟩ [] []).1 =
      .error (.verificationFailed "a" "WRONG" "h1")
    ∧ readF (run hashW applyDiffW [ManifestEntry.add "a" "WRONG"]
        ⟨[], [("a", [1])]⟩ [] []).2 "a" = some [1]
    ∧ readF ([] : FileMap) "a" = none := by
  refine ⟨by rfl, by rfl, rfl⟩

/-- C1 (witness): the amended theorem applied to a concrete apply-failure
run: a one-entry manifest `Add "a"` whose addition file is missing from
the bundle fails with `ApplyFailed`, and the target is returned
byte-identical. -/
theorem c1_atomicity_amended_witness :
    (([ManifestEntry.add "a" "h1"].map ManifestEntry.file).Nodup
      ∧ (∀ e ∈ [ManifestEntry.add "a" "h1"],
          readF ([] : FileMap) e.file = none)
      ∧ run hashW applyDiffW [ManifestEntry.add "a" "h1"] ⟨[], []⟩ [] [] =
          (.error (.applyFailed "a" "failed to read addition"), []))
    ∧ ((∀ file reason,
          (PatchError.applyFailed "a" "failed to read addition") =
            .applyFailed file reason →
          ∀ g, readF ([] : FileMap) g = readF ([] : FileMap) g)
      ∧ (∀ file x a,
          (PatchError.applyFailed "a" "failed to read addition") =
            .verificationFailed file x a →
          ∀ g, g ≠ file → readF ([] : FileMap) g = readF ([] : FileMap) g)) :=
  ⟨⟨by decide, by decide, by rfl⟩,
    c1_atomicity_amended hashW applyDiffW [ManifestEntry.add "a" "h1"]
      ⟨[], []⟩ [] [] [] (.applyFailed "a" "failed to read addition")
      (by decide) (by decide) (by rfl)⟩

/-- C9: in phase 3, when an entry's apply (or its verify) fails and the
rollback over the already-applied entries also fails, the loop returns the
rollback's own `RollbackFailed` error and the final state of the rollback
attempt; the original `ApplyFailed` or `VerificationFailed` error is not
part of the returned value. -/
theorem c9_rollback_error_replaces_cause (hash_bytes : Bytes → String)
    (apply_diff : Bytes → Bytes → Option Bytes) (patchSrc : PatchSrc)
    (e : ManifestEntry) (rest applied : List ManifestEntry)
    (t backup : FileMap) :
    (∀ err rbErr t2,
        apply_entry apply_diff e t patchSrc = .error err →
        rollback applied t backup = (.error rbErr, t2) →
        applyLoop hash_bytes apply_diff patchSrc (e :: rest) applied t backup
            = (.error rbErr, t2)
          ∧ (∃ r, rbErr = .rollbackFailed r) ∧ rbErr ≠ err)
    ∧ (∀ t1 err rbErr t2,
        apply_entry apply_diff e t patchSrc = .ok t1 →
        verify_entry hash_bytes e t1 = .error err →
        rollback applied t1 backup = (.error rbErr, t2) →
        applyLoop hash_bytes apply_diff patchSrc (e :: rest) applied t backup
            = (.error rbErr, t2)
          ∧ (∃ r, rbErr = .rollbackFailed r) ∧ rbErr ≠ err) := by
  constructor
  · intro err rbErr t2 hae hrb
    obtain ⟨r, hr⟩ := rollback_error_shape applied t backup t2 rbErr hrb
    obtain ⟨ra, hra⟩ := apply_entry_error_shape apply_diff e t patchSrc err hae
    refine ⟨by simp only [applyLoop, hae, hrb], ⟨r, hr⟩, ?_⟩
    rw [hr, hra]
    intro hc
    cases hc
  · intro t1 err rbErr t2 hae hve hrb
    obtain ⟨r, hr⟩ := rollback_error_shape applied t1 backup t2 rbErr hrb
    obtain ⟨x, a, hxa⟩ := verify_entry_error_shape hash_bytes e t1 err hve
    refine ⟨by simp only [applyLoop, hae, hve, hrb], ⟨r, hr⟩, ?_⟩
    rw [hr, hxa]
    intro hc
    cases hc

/-- C9 (witness): a concrete two-entry scenario where the second entry's
apply fails and rolling back the first (a Patch whose backup file is
missing) fails too; the loop returns the `RollbackFailed` error. -/
theorem c9_rollback_error_replaces_cause_witness :
    (apply_entry applyDiffW (ManifestEntry.add "b" "h1") [("a", [1])]
        ⟨[], []⟩ = .error (.applyFailed "b" "failed to read addition")
      ∧ rollback [ManifestEntry.patch "a" "h0" "hd" "h1"] [("a", [1])] [] =
          (.error (.rollbackFailed "failed to restore a"), [("a", [1])]))
    ∧ (applyLoop hashW applyDiffW ⟨[], []⟩
          (ManifestEntry.add "b" "h1" :: [])
          [ManifestEntry.patch "a" "h0" "hd" "h1"] [("a", [1])] []
          = (.error (.rollbackFailed "failed to restore a"), [("a", [1])])
        ∧ (∃ r, (PatchError.rollbackFailed "failed to restore a") =
            .rollbackFailed r)
        ∧ (PatchError.rollbackFailed "failed to restore a") ≠
            (.applyFailed "b" "failed to read addition")) :=
  ⟨⟨by rfl, by rfl⟩,
    (c9_rollback_error_replaces_cause hashW applyDiffW ⟨[], []⟩
      (ManifestEntry.add "b" "h1") [] [ManifestEntry.patch "a" "h0" "hd" "h1"]
      [("a", [1])] []).1
      (.applyFailed "b" "failed to read addition")
      (.rollbackFailed "failed to restore a") [("a", [1])]
      (by rfl) (by rfl)⟩

theorem validate_backup_error_shape (hash_bytes : Bytes → String)
    (entries : List ManifestEntry) (backup : FileMap) (err : PatchError)
    (h : validate_backup hash_bytes entries backup = .error err) :
    ∃ r, err = .rollbackFailed r := by
  induction entries with
  | nil => cases h
  | cons e rest ih =>
      cases e with
      | patch file oh dh fh =>
          cases hr : readF backup file with
          | none =>
              simp only [validate_backup, hr] at h
              exact ⟨"backup file not found for " ++ file, by cases h; rfl⟩
          | some data =>
              simp only [validate_backup, hr] at h
              by_cases hh : hash_bytes data = oh
              · rw [if_pos hh] at h
                exact ih h
              · rw [if_neg hh] at h
                exact ⟨"backup hash mismatch for " ++ file, by cases h; rfl⟩
      | delete file oh =>
          cases hr : readF backup file with
          | none =>
              simp only [validate_backup, hr] at h
              exact ⟨"backup file not found for " ++ file, by cases h; rfl⟩
          | some data =>
              simp only [validate_backup, hr] at h
              by_cases hh : hash_bytes data = oh
              · rw [if_pos hh] at h
                exact ih h
              · rw [if_neg hh] at h
                exact ⟨"backup hash mismatch for " ++ file, by cases h; rfl⟩
      | add file fh =>
          simp only [validate_backup] at h
          exact ih h

/-- C6: the rollback command validates backup integrity before any
restore in both force modes; when that validation fails, the call returns
the `RollbackFailed` error and the target directory unchanged — a
corrupted backup never overwrites a live target. -/
theorem c6_backup_validated_before_restore (hash_bytes : Bytes → String)
    (entries : List ManifestEntry) (target backup : FileMap) (force : Bool)
    (err : PatchError)
    (hpatched : force = true ∨
      validate_patched_entries hash_bytes entries target = .ok ())
    (hfail : validate_backup hash_bytes entries backup = .error err) :
    run_rollback hash_bytes entries target (some backup) force =
        (.error err, target)
    ∧ ∃ r, err = .rollbackFailed r := by
  refine ⟨?_, validate_backup_error_shape hash_bytes entries backup err hfail⟩
  rcases hpatched with hf | hok
  · subst hf
    simp [run_rollback, hfail]
  · cases force
    · simp [run_rollback, hok, hfail]
    · simp [run_rollback, hfail]

/-- C6 (witness): a concrete run: one Delete entry, empty backup
directory, force mode; backup validation fails and the unchanged target is
returned with a `RollbackFailed` error. -/
theorem c6_backup_validated_before_restore_witness :
    ((true = true ∨
        validate_patched_entries hashW [ManifestEntry.delete "a" "h0"]
          [("a", [1])] = .ok ())
      ∧ validate_backup hashW [ManifestEntry.delete "a" "h0"] [] =
          .error (.rollbackFailed "backup file not found for a"))
    ∧ (run_rollback hashW [ManifestEntry.delete "a" "h0"] [("a", [1])]
          (some []) true =
        (.error (.rollbackFailed "backup file not found for a"), [("a", [1])])
      ∧ ∃ r, (PatchError.rollbackFailed "backup file not found for a") =
          .rollbackFailed r) :=
  ⟨⟨Or.inl rfl, by rfl⟩,
    c6_backup_validated_before_restore hashW [ManifestEntry.delete "a" "h0"]
      [("a", [1])] [] true (.rollbackFailed "backup file not found for a")
      (Or.inl rfl) (by rfl)⟩

/-- C2 (witness): a one-entry Delete manifest applied to a matching
target succeeds and leaves the file absent. -/
theorem c2_hash_identity_witness :
    (([ManifestEntry.delete "a" "h0"].map ManifestEntry.file).Nodup
      ∧ run hashW applyDiffW [ManifestEntry.delete "a" "h0"] ⟨[], []⟩
          [("a", [0])] [] = (.ok (), []))
    ∧ ∀ e ∈ [ManifestEntry.delete "a" "h0"], postCond hashW [] e :=
  ⟨⟨by decide, by rfl⟩,
    c2_hash_identity hashW applyDiffW [ManifestEntry.delete "a" "h0"]
      ⟨[], []⟩ [("a", [0])] [] [] (by decide) (by rfl)⟩

/-- C5 (witness): after validating a one-entry Delete manifest whose
target file exists, the backup phase stores a copy hashing to the entry's
`original_hash` and touches no other backup name. -/
theorem c5_backup_contents_witness :
    validate_entries hashW [ManifestEntry.delete "a" "h0"] [("a", [0])]
        = .ok ()
    ∧ ((∀ e ∈ [ManifestEntry.delete "a" "h0"], ∀ original_hash,
          e.originalHash = some original_hash →
          existsF [("a", [0])] e.file = true →
          ∃ b, readF (backup_entries [ManifestEntry.delete "a" "h0"]
              [("a", [0])] []) e.file = some b ∧ hashW b = original_hash)
      ∧ (∀ f, readF (backup_entries [ManifestEntry.delete "a" "h0"]
            [("a", [0])] []) f ≠ readF ([] : FileMap) f →
          ∃ e ∈ [ManifestEntry.delete "a" "h0"],
            e.isBackedUp [("a", [0])] = true ∧ e.file = f)) :=
  ⟨by rfl,
    c5_backup_contents hashW [ManifestEntry.delete "a" "h0"] [("a", [0])] []
      (by rfl)⟩

/-- A detected change between two directories (`utils/dir_scan.rs`): the
differ's intermediate variant, carrying no `diff_hash`. -/
inductive FileChange
  | patch (file original_hash final_hash : String)
  | add (file final_hash : String)
  | delete (file original_hash : String)
deriving DecidableEq

/-- `FileChange::file` (`utils/dir_scan.rs`). -/
def FileChange.file : FileChange → String
  | .patch f _ _ => f
  | .add f _ => f
  | .delete f _ => f

/-- The comparison `a.file().cmp(b.file())` used by the final
`sort_by`. -/
def changeLE (a b : FileChange) : Prop := a.file ≤ b.file

/-- Strict version of `changeLE`, used to state uniqueness of the sorted
output. -/
def changeLT (a b : FileChange) : Prop := a.file < b.file

instance : DecidableRel changeLE := fun a b =>
  inferInstanceAs (Decidable (a.file ≤ b.file))

instance : DecidableRel changeLT := fun a b =>
  inferInstanceAs (Decidable (a.file < b.file))

instance : IsTotal FileChange changeLE := ⟨fun a b => le_total a.file b.file⟩

instance : IsTrans FileChange changeLE := ⟨fun _ _ _ h1 h2 => le_trans h1 h2⟩

instance : IsAntisymm FileChange changeLT :=
  ⟨fun _ _ h1 h2 => absurd h2 (lt_asymm h1)⟩

/-- A raw directory entry as `fs::read_dir` yields it: an OS-level name (a
byte sequence, not necessarily valid UTF-8), whether the entry is a
regular file, and the file's contents. -/
structure RawEntry where
  name : List Nat
  isFile : Bool
  data : Bytes

/-- `list_files` (`utils/dir_scan.rs`): collect the names of the regular
files whose OS name decodes to UTF-8 (`entry.file_name().to_str()`,
modelled by the `dec` parameter) and sort them; an entry whose name does
not decode, or that is not a regular file, is silently skipped, never an
error. -/
def list_files (dec : List Nat → Option String) (d : List RawEntry) :
    List String :=
  List.insertionSort (· ≤ ·)
    ((d.filter (fun e => e.isFile)).filterMap (fun e => dec e.name))

/-- The body of the intersection loop of `categorize_files`: both files
are read and hashed; differing hashes yield a Patch change, equal hashes
yield nothing. -/
def patchChange (hash_bytes : Bytes → String) (orig_dir new_dir : FileMap)
    (f : String) : Option FileChange :=
  match readF orig_dir f, readF new_dir f with
  | some origData, some newData =>
      if hash_bytes origData = hash_bytes newData then none
      else some (.patch f (hash_bytes origData) (hash_bytes newData))
  | _, _ => none

/-- The body of the new-only loop of `categorize_files`: an Add change
carrying the new file's hash. -/
def addChange (hash_bytes : Bytes → String) (new_dir : FileMap)
    (f : String) : Option FileChange :=
  (readF new_dir f).map (fun b => FileChange.add f (hash_bytes b))

/-- The body of the orig-only loop of `categorize_files`: a Delete change
carrying the original file's hash. -/
def deleteChange (hash_bytes : Bytes → String) (orig_dir : FileMap)
    (f : String) : Option FileChange :=
  (readF orig_dir f).map (fun b => FileChange.delete f (hash_bytes b))

/-- The change list of `categorize_files` before the final sort:
intersection names first, then new-only names, then orig-only names, each
loop iterating in the order of the underlying list (standing for the
arbitrary iteration order of the source's `HashSet`s). -/
def categorizeUnsorted (hash_bytes : Bytes → String)
    (orig_dir new_dir : FileMap) : List FileChange :=
  ((orig_dir.map Prod.fst).filter
      (fun f => decide (f ∈ new_dir.map Prod.fst))).filterMap
    (patchChange hash_bytes orig_dir new_dir)
  ++ ((new_dir.map Prod.fst).filter
      (fun f => decide (f ∉ orig_dir.map Prod.fst))).filterMap
    (addChange hash_bytes new_dir)
  ++ ((orig_dir.map Prod.fst).filter
      (fun f => decide (f ∉ new_dir.map Prod.fst))).filterMap
    (deleteChange hash_bytes orig_dir)

/-- `categorize_files` (`utils/dir_scan.rs`) over the decoded view of the
two directories: names in both directories yield a Patch change when the
hashes differ, names only in `new_dir` yield Add, names only in `orig_dir`
yield Delete, and the result is sorted by file name
(`changes.sort_by(file)`). -/
def categorize_files (hash_bytes : Bytes → String)
    (orig_dir new_dir : FileMap) : List FileChange :=
  List.insertionSort changeLE (categorizeUnsorted hash_bytes orig_dir new_dir)

/-- The decoded view of a raw directory: the name/content pairs of its
regular files whose OS names decode to UTF-8. -/
def dirView (dec : List Nat → Option String) (d : List RawEntry) : FileMap :=
  (d.filter (fun e => e.isFile)).filterMap
    (fun e => (dec e.name).map (fun s => (s, e.data)))

/-- `categorize_files` from the raw directory entries: the differ consumes
exactly the files `list_files` reports. -/
def categorize_files_raw (hash_bytes : Bytes → String)
    (dec : List Nat → Option String) (dA dB : List RawEntry) :
    List FileChange :=
  categorize_files hash_bytes (dirView dec dA) (dirView dec dB)

theorem readF_none_iff (m : FileMap) (f : String) :
    readF m f = none ↔ f ∉ m.map Prod.fst := by
  induction m with
  | nil => simp [readF]
  | cons p m ih =>
      by_cases hpf : p.1 = f
      · simp [readF, hpf]
      · simp only [readF, if_neg hpf, List.map_cons, List.mem_cons]
        rw [ih]
        constructor
        · intro h hc
          rcases hc with hc | hc
          · exact hpf hc.symm
          · exact h hc
        · intro h hc
          exact h (Or.inr hc)

theorem readF_some_iff_mem (m : FileMap) (hnd : (m.map Prod.fst).Nodup)
    (f : String) (b : Bytes) :
    readF m f = some b ↔ (f, b) ∈ m := by
  induction m with
  | nil => simp [readF]
  | cons p m ih =>
      rw [List.map_cons, List.nodup_cons] at hnd
      by_cases hpf : p.1 = f
      · subst hpf
        simp only [readF, if_pos rfl, List.mem_cons]
        constructor
        · intro h
          injection h with h
          left
          rw [← h]
        · rintro (h | h)
          · have hb : p.2 = b := (congrArg Prod.snd h).symm
            rw [hb]
            simp
          · exact absurd (List.mem_map_of_mem Prod.fst h) hnd.1
      · simp only [readF, if_neg hpf, List.mem_cons]
        rw [ih hnd.2]
        constructor
        · intro h
          exact Or.inr h
        · rintro (h | h)
          · exact absurd (congrArg Prod.fst h).symm hpf
          · exact h

theorem readF_eq_of_perm (A A2 : FileMap) (hp : A.Perm A2)
    (hnd : (A.map Prod.fst).Nodup) : readF A2 = readF A := by
  have hnd2 : (A2.map Prod.fst).Nodup := ((hp.map Prod.fst).nodup_iff).mp hnd
  funext f
  cases hr : readF A f with
  | some b =>
      have hm := (readF_some_iff_mem A hnd f b).mp hr
      exact (readF_some_iff_mem A2 hnd2 f b).mpr (hp.mem_iff.mp hm)
  | none =>
      have hm := (readF_none_iff A f).mp hr
      refine (readF_none_iff A2 f).mpr ?_
      intro hc
      exact hm (((hp.map Prod.fst).mem_iff).mpr hc)

theorem filterMap_keys_sublist (l : List String)
    (g : String → Option FileChange)
    (hg : ∀ f c, g f = some c → c.file = f) :
    ((l.filterMap g).map FileChange.file).Sublist l := by
  induction l with
  | nil => simp
  | cons f l ih =>
      rw [List.filterMap_cons]
      cases hgf : g f with
      | none => exact ih.cons f
      | some c =>
          rw [List.map_cons, hg f c hgf]
          exact ih.cons₂ f

theorem sorted_changeLT_of_nodup (l : List FileChange)
    (hs : l.Sorted changeLE) (hnd : (l.map FileChange.file).Nodup) :
    l.Sorted changeLT := by
  have hpw : l.Pairwise (fun a b => a.file ≠ b.file) :=
    List.pairwise_map.mp hnd
  exact (hs.and hpw).imp (fun h => lt_of_le_of_ne h.1 h.2)

theorem insertionSort_eq_of_perm (u1 u2 : List FileChange)
    (hp : u1.Perm u2) (hnd : (u1.map FileChange.file).Nodup) :
    List.insertionSort changeLE u1 = List.insertionSort changeLE u2 := by
  have h1 := List.perm_insertionSort changeLE u1
  have h2 := List.perm_insertionSort changeLE u2
  have hnd1 : ((List.insertionSort changeLE u1).map FileChange.file).Nodup :=
    ((h1.map FileChange.file).nodup_iff).mpr hnd
  have hnd2 : ((List.insertionSort changeLE u2).map FileChange.file).Nodup :=
    ((h2.map FileChange.file).nodup_iff).mpr ((hp.map FileChange.file).nodup_iff.mp hnd)
  exact List.eq_of_perm_of_sorted (h1.trans (hp.trans h2.symm))
    (sorted_changeLT_of_nodup _ (List.sorted_insertionSort changeLE u1) hnd1)
    (sorted_changeLT_of_nodup _ (List.sorted_insertionSort changeLE u2) hnd2)

theorem patchChange_file (hash_bytes : Bytes → String)
    (orig_dir new_dir : FileMap) (f : String) (c : FileChange)
    (hc : patchChange hash_bytes orig_dir new_dir f = some c) :
    c.file = f := by
  cases h1 : readF orig_dir f with
  | none => simp only [patchChange, h1] at hc; cases hc
  | some origData =>
      cases h2 : readF new_dir f with
      | none => simp only [patchChange, h1, h2] at hc; cases hc
      | some newData =>
          simp only [patchChange, h1, h2] at hc
          by_cases hh : hash_bytes origData = hash_bytes newData
          · rw [if_pos hh] at hc; cases hc
          · rw [if_neg hh] at hc
            cases hc
            rfl

theorem addChange_file (hash_bytes : Bytes → String) (new_dir : FileMap)
    (f : String) (c : FileChange)
    (hc : addChange hash_bytes new_dir f = some c) : c.file = f := by
  cases h1 : readF new_dir f with
  | none => simp only [addChange, h1] at hc; cases hc
  | some b =>
      simp only [addChange, h1, Option.map_some] at hc
      cases hc
      rfl

theorem deleteChange_file (hash_bytes : Bytes → String) (orig_dir : FileMap)
    (f : String) (c : FileChange)
    (hc : deleteChange hash_bytes orig_dir f = some c) : c.file = f := by
  cases h1 : readF orig_dir f with
  | none => simp only [deleteChange, h1] at hc; cases hc
  | some b =>
      simp only [deleteChange, h1, Option.map_some] at hc
      cases hc
      rfl

theorem categorizeUnsorted_perm (hash_bytes : Bytes → String)
    (A B A2 B2 : FileMap)
    (hA : (A.map Prod.fst).Nodup) (hB : (B.map Prod.fst).Nodup)
    (hpa : A.Perm A2) (hpb : B.Perm B2) :
    (categorizeUnsorted hash_bytes A2 B2).Perm
      (categorizeUnsorted hash_bytes A B) := by
  have hrA : readF A2 = readF A := readF_eq_of_perm A A2 hpa hA
  have hrB : readF B2 = readF B := readF_eq_of_perm B B2 hpb hB
  have hmemA : ∀ f : String, (f ∈ A2.map Prod.fst) ↔ (f ∈ A.map Prod.fst) :=
    fun f => ((hpa.map Prod.fst).mem_iff).symm
  have hmemB : ∀ f : String, (f ∈ B2.map Prod.fst) ↔ (f ∈ B.map Prod.fst) :=
    fun f => ((hpb.map Prod.fst).mem_iff).symm
  have hg1 : patchChange hash_bytes A2 B2 = patchChange hash_bytes A B := by
    funext f
    rw [patchChange, patchChange, hrA, hrB]
  have hg2 : addChange hash_bytes B2 = addChange hash_bytes B := by
    funext f
    rw [addChange, addChange, hrB]
  have hg3 : deleteChange hash_bytes A2 = deleteChange hash_bytes A := by
    funext f
    rw [deleteChange, deleteChange, hrA]
  have hf1 : (A2.map Prod.fst).filter (fun f => decide (f ∈ B2.map Prod.fst))
      = (A2.map Prod.fst).filter (fun f => decide (f ∈ B.map Prod.fst)) :=
    List.filter_congr (fun f _ => by rw [decide_eq_decide]; exact hmemB f)
  have hf2 : (B2.map Prod.fst).filter (fun f => decide (f ∉ A2.map Prod.fst))
      = (B2.map Prod.fst).filter (fun f => decide (f ∉ A.map Prod.fst)) :=
    List.filter_congr (fun f _ => by
      rw [decide_eq_decide]
      exact not_congr (hmemA f))
  have hf3 : (A2.map Prod.fst).filter (fun f => decide (f ∉ B2.map Prod.fst))
      = (A2.map Prod.fst).filter (fun f => decide (f ∉ B.map Prod.fst)) :=
    List.filter_congr (fun f _ => by
      rw [decide_eq_decide]
      exact not_congr (hmemB f))
  rw [categorizeUnsorted, categorizeUnsorted, hg1, hg2, hg3, hf1, hf2, hf3]
  refine List.Perm.append
    (List.Perm.append (List.Perm.filterMap _ ?_) (List.Perm.filterMap _ ?_))
    (List.Perm.filterMap _ ?_)
  · exact (hpa.map Prod.fst).filter _ |>.symm
  · exact (hpb.map Prod.fst).filter _ |>.symm
  · exact (hpa.map Prod.fst).filter _ |>.symm

theorem categorizeUnsorted_keys_nodup (hash_bytes : Bytes → String)
    (A B : FileMap)
    (hA : (A.map Prod.fst).Nodup) (hB : (B.map Prod.fst).Nodup) :
    ((categorizeUnsorted hash_bytes A B).map FileChange.file).Nodup := by
  have hs1 := filterMap_keys_sublist
    ((A.map Prod.fst).filter (fun f => decide (f ∈ B.map Prod.fst)))
    (patchChange hash_bytes A B)
    (patchChange_file hash_bytes A B)
  have hs2 := filterMap_keys_sublist
    ((B.map Prod.fst).filter (fun f => decide (f ∉ A.map Prod.fst)))
    (addChange hash_bytes B)
    (addChange_file hash_bytes B)
  have hs3 := filterMap_keys_sublist
    ((A.map Prod.fst).filter (fun f => decide (f ∉ B.map Prod.fst)))
    (deleteChange hash_bytes A)
    (deleteChange_file hash_bytes A)
  have hn1 := hs1.nodup (hA.filter _)
  have hn2 := hs2.nodup (hB.filter _)
  have hn3 := hs3.nodup (hA.filter _)
  have hmem1 : ∀ f, f ∈ (((A.map Prod.fst).filter
        (fun f => decide (f ∈ B.map Prod.fst))).filterMap
        (patchChange hash_bytes A B)).map FileChange.file →
      f ∈ A.map Prod.fst ∧ f ∈ B.map Prod.fst := by
    intro f hf
    have := hs1.subset hf
    obtain ⟨h1, h2⟩ := List.mem_filter.mp this
    exact ⟨h1, of_decide_eq_true h2⟩
  have hmem2 : ∀ f, f ∈ (((B.map Prod.fst).filter
        (fun f => decide (f ∉ A.map Prod.fst))).filterMap
        (addChange hash_bytes B)).map FileChange.file →
      f ∈ B.map Prod.fst ∧ f ∉ A.map Prod.fst := by
    intro f hf
    have := hs2.subset hf
    obtain ⟨h1, h2⟩ := List.mem_filter.mp this
    exact ⟨h1, of_decide_eq_true h2⟩
  have hmem3 : ∀ f, f ∈ (((A.map Prod.fst).filter
        (fun f => decide (f ∉ B.map Prod.fst))).filterMap
        (deleteChange hash_bytes A)).map FileChange.file →
      f ∈ A.map Prod.fst ∧ f ∉ B.map Prod.fst := by
    intro f hf
    have := hs3.subset hf
    obtain ⟨h1, h2⟩ := List.mem_filter.mp this
    exact ⟨h1, of_decide_eq_true h2⟩
  rw [categorizeUnsorted, List.map_append, List.map_append]
  refine List.Nodup.append (List.Nodup.append hn1 hn2 ?_) hn3 ?_
  · intro f hf1 hf2
    exact (hmem2 f hf2).2 (hmem1 f hf1).1
  · intro f hf12 hf3
    rcases List.mem_append.mp hf12 with hf1 | hf2
    · exact (hmem3 f hf3).2 (hmem1 f hf1).2
    · exact (hmem2 f hf2).2 (hmem3 f hf3).1

/-- C7: `categorize_files` returns its change list sorted by file name in
ascending order, and its output is invariant under reordering of the raw
directory listings — two invocations over the same directory contents
(the same name/content sets, in any order) return identical lists. -/
theorem c7_categorize_sorted_deterministic (hash_bytes : Bytes → String)
    (A B A2 B2 : FileMap)
    (hA : (A.map Prod.fst).Nodup) (hB : (B.map Prod.fst).Nodup)
    (hpa : A.Perm A2) (hpb : B.Perm B2) :
    List.Sorted changeLE (categorize_files hash_bytes A B)
    ∧ categorize_files hash_bytes A B = categorize_files hash_bytes A2 B2 := by
  constructor
  · rw [categorize_files]
    exact List.sorted_insertionSort changeLE _
  · rw [categorize_files, categorize_files]
    exact insertionSort_eq_of_perm _ _
      (categorizeUnsorted_perm hash_bytes A B A2 B2 hA hB hpa hpb).symm
      (categorizeUnsorted_keys_nodup hash_bytes A B hA hB)

/-- C7 (witness): two listings of the same two directories in different
orders produce the same sorted change list. -/
theorem c7_categorize_sorted_deterministic_witness :
    (([("b", [1]), ("a", [0])] : FileMap).map Prod.fst).Nodup
    ∧ (([("b", [2])] : FileMap).map Prod.fst).Nodup
    ∧ ([("b", [1]), ("a", [0])] : FileMap).Perm [("a", [0]), ("b", [1])]
    ∧ ([("b", [2])] : FileMap).Perm [("b", [2])]
    ∧ (List.Sorted changeLE
        (categorize_files hashW [("b", [1]), ("a", [0])] [("b", [2])])
      ∧ categorize_files hashW [("b", [1]), ("a", [0])] [("b", [2])] =
          categorize_files hashW [("a", [0]), ("b", [1])] [("b", [2])]) :=
  ⟨by decide, by decide, by decide, by decide,
    c7_categorize_sorted_deterministic hashW
      [("b", [1]), ("a", [0])] [("b", [2])]
      [("a", [0]), ("b", [1])] [("b", [2])]
      (by decide) (by decide) (by decide) (by decide)⟩

theorem dirView_keys (dec : List Nat → Option String) (d : List RawEntry)
    (s : String) :
    s ∈ (dirView dec d).map Prod.fst ↔
      ∃ e ∈ d, e.isFile = true ∧ dec e.name = some s := by
  unfold dirView
  constructor
  · intro hs
    obtain ⟨p, hp, hps⟩ := List.mem_map.mp hs
    obtain ⟨e, he, hge⟩ := List.mem_filterMap.mp hp
    obtain ⟨he1, he2⟩ := List.mem_filter.mp he
    obtain ⟨s2, hs2, hps2⟩ := Option.map_eq_some'.mp hge
    refine ⟨e, he1, by simpa using he2, ?_⟩
    rw [hs2]
    exact congrArg some ((congrArg Prod.fst hps2).trans hps)
  · rintro ⟨e, he, hf, hd⟩
    refine List.mem_map.mpr ⟨(s, e.data), ?_, rfl⟩
    refine List.mem_filterMap.mpr
      ⟨e, List.mem_filter.mpr ⟨he, by simpa using hf⟩, ?_⟩
    rw [hd]
    rfl

theorem list_files_mem (dec : List Nat → Option String) (d : List RawEntry)
    (s : String) :
    s ∈ list_files dec d ↔ ∃ e ∈ d, e.isFile = true ∧ dec e.name = some s := by
  rw [list_files, (List.perm_insertionSort _ _).mem_iff]
  constructor
  · intro hs
    obtain ⟨e, he, hde⟩ := List.mem_filterMap.mp hs
    obtain ⟨he1, he2⟩ := List.mem_filter.mp he
    exact ⟨e, he1, by simpa using he2, hde⟩
  · rintro ⟨e, he, hf, hd⟩
    exact List.mem_filterMap.mpr
      ⟨e, List.mem_filter.mpr ⟨he, by simpa using hf⟩, hd⟩

theorem categorize_files_file_mem (hash_bytes : Bytes → String)
    (A B : FileMap) (c : FileChange)
    (hc : c ∈ categorize_files hash_bytes A B) :
    c.file ∈ A.map Prod.fst ∨ c.file ∈ B.map Prod.fst := by
  rw [categorize_files, (List.perm_insertionSort _ _).mem_iff,
    categorizeUnsorted] at hc
  rcases List.mem_append.mp hc with hc12 | hc3
  · rcases List.mem_append.mp hc12 with hc1 | hc2
    · obtain ⟨f, hf, hg⟩ := List.mem_filterMap.mp hc1
      rw [patchChange_file hash_bytes A B f c hg]
      exact Or.inl (List.mem_filter.mp hf).1
    · obtain ⟨f, hf, hg⟩ := List.mem_filterMap.mp hc2
      rw [addChange_file hash_bytes B f c hg]
      exact Or.inr (List.mem_filter.mp hf).1
  · obtain ⟨f, hf, hg⟩ := List.mem_filterMap.mp hc3
    rw [deleteChange_file hash_bytes A f c hg]
    exact Or.inl (List.mem_filter.mp hf).1

/-- C10: `list_files` succeeds on any readable directory while silently
skipping every entry whose OS name is not valid UTF-8 and every
non-regular-file entry — its output is exactly the decodable regular
names; consequently every change `categorize_files` emits names a
decodable regular file of one of the two directories, so no Patch, Add or
Delete change is ever produced for a skipped entry. -/
theorem c10_non_unicode_entries_skipped (hash_bytes : Bytes → String)
    (dec : List Nat → Option String) (dA dB : List RawEntry) :
    (∀ s, s ∈ list_files dec dA ↔
        ∃ e ∈ dA, e.isFile = true ∧ dec e.name = some s)
    ∧ ∀ c ∈ categorize_files_raw hash_bytes dec dA dB,
        (∃ e ∈ dA, e.isFile = true ∧ dec e.name = some c.file) ∨
        (∃ e ∈ dB, e.isFile = true ∧ dec e.name = some c.file) := by
  refine ⟨list_files_mem dec dA, ?_⟩
  intro c hc
  rcases categorize_files_file_mem hash_bytes _ _ c hc with h | h
  · exact Or.inl ((dirView_keys dec dA c.file).mp h)
  · exact Or.inr ((dirView_keys dec dB c.file).mp h)

/-- JSON values as `serde_json` parses them. -/
inductive Json
  | null
  | bool (b : Bool)
  | num (n : Int)
  | str (s : String)
  | arr (elems : List Json)
  | obj (fields : List (String × Json))

/-- `Operation` (`utils/manifest.rs`): the entry's tag, serialized
lowercase. -/
inductive Operation
  | patch
  | add
  | delete
deriving DecidableEq

/-- `ManifestEntry` as `utils/manifest.rs` declares it: a struct with a
required `file`, a required `operation` tag, and three `Option<String>`
hash fields that are skipped when `None`.  Named `ManifestEntryS` here to
keep it apart from the tagged-variant entry the engine pattern-matches. -/
structure ManifestEntryS where
  file : String
  operation : Operation
  original_hash : Option String
  diff_hash : Option String
  final_hash : Option String
deriving DecidableEq

/-- `Manifest` (`utils/manifest.rs`). -/
structure ManifestS where
  version : Nat
  entries : List ManifestEntryS
deriving DecidableEq

/-- Field lookup in a JSON object. -/
def Json.getField (fields : List (String × Json)) (key : String) :
    Option Json :=
  (fields.find? (fun p => p.1 == key)).map Prod.snd

/-- serde deserialization of an `Option<String>` field: a missing field
and an explicit `null` both give `None`, a string gives `Some`, any other
value is a type error. -/
def getOptString : Option Json → Except String (Option String)
  | none => .ok none
  | some .null => .ok none
  | some (.str s) => .ok (some s)
  | some _ => .error "invalid type"

/-- serde deserialization of a required `String` field. -/
def getReqString : Option Json → Except String String
  | some (.str s) => .ok s
  | some _ => .error "invalid type"
  | none => .error "missing field"

/-- serde deserialization of the lowercase `Operation` tag. -/
def operationFromJson : Option Json → Except String Operation
  | some (.str "patch") => .ok .patch
  | some (.str "add") => .ok .add
  | some (.str "delete") => .ok .delete
  | some _ => .error "unknown variant"
  | none => .error "missing field operation"

/-- serde deserialization of one `ManifestEntry` struct. -/
def entryFromJson : Json → Except String ManifestEntryS
  | .obj fields => do
      let file ← getReqString (Json.getField fields "file")
      let operation ← operationFromJson (Json.getField fields "operation")
      let original_hash ← getOptString (Json.getField fields "original_hash")
      let diff_hash ← getOptString (Json.getField fields "diff_hash")
      let final_hash ← getOptString (Json.getField fields "final_hash")
      .ok ⟨file, operation, original_hash, diff_hash, final_hash⟩
  | _ => .error "invalid type: expected object"

/-- serde deserialization of the `entries` array. -/
def entriesFromJson : Option Json → Except String (List ManifestEntryS)
  | some (.arr elems) => elems.mapM entryFromJson
  | some _ => .error "invalid type"
  | none => .error "missing field entries"

/-- serde deserialization of the `version` field (`u32`). -/
def versionFromJson : Option Json → Except String Nat
  | some (.num n) => if n < 0 then .error "invalid value" else .ok n.toNat
  | some _ => .error "invalid type"
  | none => .error "missing field version"

/-- serde deserialization of a whole `Manifest`. -/
def manifestFromJson : Json → Except String ManifestS
  | .obj fields => do
      let version ← versionFromJson (Json.getField fields "version")
      let entries ← entriesFromJson (Json.getField fields "entries")
      .ok ⟨version, entries⟩
  | _ => .error "invalid type: expected object"

/-- `Manifest::load` (`utils/manifest.rs`): read the file
(`fs::read_to_string`; a missing file is an I/O error) and deserialize it
(`serde_json::from_str`).  The filesystem and the textual JSON parser are
parameters: `fs` maps a path to the file's contents when it exists, and
`parse` maps a string to the `Json` value it denotes, `none` for
malformed text. -/
def Manifest_load (fs : String → Option String)
    (parse : String → Option Json) (path : String) :
    Except String ManifestS :=
  match fs path with
  | none => .error "io error"
  | some content =>
      match parse content with
      | none => .error "malformed json"
      | some j => manifestFromJson j

/-- A one-file filesystem holding a manifest whose single entry is tagged
"patch" but carries no hash fields. -/
def fsX : String → Option String :=
  fun p => if p = "manifest.json" then some "m" else none

/-- The parse of `fsX`'s file contents. -/
def parseX : String → Option Json :=
  fun c =>
    if c = "m" then
      some (.obj [("version", .num 1),
        ("entries", .arr
          [Json.obj [("file", .str "a.bin"), ("operation", .str "patch")]])])
    else none

/-- C4 (counterexample): loading a manifest whose single entry is tagged
"patch" but omits `original_hash`, `diff_hash` and `final_hash` succeeds,
returning a manifest value with those fields `None` — the hash fields are
`Option<String>` in the struct, so no variant makes them required. -/
theorem c4_manifest_load_counterexample :
    Manifest_load fsX parseX "manifest.json" =
      .ok ⟨1, [⟨"a.bin", .patch, none, none, none⟩]⟩ := rfl

/-- C4 (amended): loading fails when the manifest file is missing or its
JSON is malformed, but the three hash fields are optional for every
operation tag: an entry tagged "patch" that omits `original_hash`,
`diff_hash` and `final_hash` deserializes successfully with those fields
`None`. -/
theorem c4_manifest_load_amended (fs : String → Option String)
    (parse : String → Option Json) (path : String) :
    (fs path = none → Manifest_load fs parse path = .error "io error")
    ∧ (∀ content, fs path = some content → parse content = none →
        Manifest_load fs parse path = .error "malformed json")
    ∧ (∀ file, entryFromJson
        (.obj [("file", .str file), ("operation", .str "patch")]) =
          .ok ⟨file, .patch, none, none, none⟩) := by
  refine ⟨fun h => by rw [Manifest_load, h], ?_, fun file => rfl⟩
  intro content h1 h2
  simp only [Manifest_load, h1, h2]

/-- `PatchRunnerError` (`graft-gui/src/runner.rs`). -/
inductive PatchRunnerError
  | extractionFailed (msg : String)
  | manifestLoadFailed (msg : String)
deriving DecidableEq

/-- Outcome of `PatchRunner::new` (`graft-gui/src/runner.rs`) together
with the fate of the scratch directory: `scratchDeleted` records whether
the temporary extraction directory had been removed when `new` returned. -/
structure RunnerOutcome where
  result : Except PatchRunnerError (FileMap × ManifestS)
  scratchDeleted : Bool

/-- `PatchRunner::new` (`graft-gui/src/runner.rs`) as a function of the
extraction step and the manifest loader.  The source creates a
`tempfile::TempDir` (a scoped guard whose drop deletes the directory),
extracts the embedded archive into it and loads the manifest; on the two
error exits the guard is dropped, deleting the scratch directory, but on
success the source calls `temp_dir.keep()`, which disables the scoped
deletion and persists the directory as the runner's `patch_dir`. -/
def PatchRunner_new (extract : Bytes → Option FileMap)
    (loadManifest : FileMap → Except String ManifestS) (data : Bytes) :
    RunnerOutcome :=
  match extract data with
  | none => ⟨.error (.extractionFailed "failed to extract"), true⟩
  | some dir =>
      match loadManifest dir with
      | .error e => ⟨.error (.manifestLoadFailed e), true⟩
      | .ok m => ⟨.ok (dir, m), false⟩

/-- An extraction step that always succeeds with an empty patch
directory. -/
def extractX : Bytes → Option FileMap := fun _ => some []

/-- A manifest loader that always succeeds with an empty manifest. -/
def loadX : FileMap → Except String ManifestS := fun _ => .ok ⟨1, []⟩

/-- C8 (counterexample): when extraction and manifest load both succeed,
`PatchRunner::new` returns with the scratch directory NOT deleted — the
`keep()` call persists it, and no later code path of the patcher deletes
it, so the successful-application exit keeps the scratch directory
forever. -/
theorem c8_scratch_dir_counterexample :
    PatchRunner_new extractX loadX [] = ⟨.ok ([], ⟨1, []⟩), false⟩ := rfl

/-- C8 (amended): the scratch directory is deleted on the two error exits
of `PatchRunner::new` (extraction failure and manifest-load failure,
where the scoped guard is dropped), but on successful construction it is
persisted via `keep()` and not deleted by the runner. -/
theorem c8_scratch_dir_amended (extract : Bytes → Option FileMap)
    (loadManifest : FileMap → Except String ManifestS) (data : Bytes) :
    (∀ err, (PatchRunner_new extract loadManifest data).result = .error err →
        (PatchRunner_new extract loadManifest data).scratchDeleted = true)
    ∧ (∀ dir m,
        (PatchRunner_new extract loadManifest data).result = .ok (dir, m) →
        (PatchRunner_new extract loadManifest data).scratchDeleted = false) := by
  cases hx : extract data with
  | none =>
      refine ⟨fun err _ => ?_, fun dir m hc => ?_⟩
      · simp [PatchRunner_new, hx]
      · simp [PatchRunner_new, hx] at hc
  | some dir =>
      cases hl : loadManifest dir with
      | error e =>
          refine ⟨fun err _ => ?_, fun dir2 m hc => ?_⟩
          · simp [PatchRunner_new, hx, hl]
          · simp [PatchRunner_new, hx, hl] at hc
      | ok m =>
          refine ⟨fun err hc => ?_, fun dir2 m2 _ => ?_⟩
          · simp [PatchRunner_new, hx, hl] at hc
          · simp [PatchRunner_new, hx, hl]

end Graft
